import Mathlib

/-!
Verification of the OpenAPI-to-command-tree compiler (`src/openapi.rs`) of the
cloudflare-cli repository.  The Rust functions `build_command_tree`,
`collect_parameters`, `parse_schema`, `merge_parameters`, `normalize_name`,
`normalize_flag` and `unique_op_name` are embedded as executable Lean
definitions below, and the spec claims are settled as theorems about them.
-/

set_option maxHeartbeats 1000000

namespace CfCli

/-! ## Character helpers

Translations of the Rust `char::is_ascii_alphanumeric` and
`char::to_ascii_lowercase` / `to_ascii_uppercase` used by `normalize_name`
and the `method.to_uppercase()` call (the latter is only applied to fixed
lowercase ASCII method names, where Unicode and ASCII uppercasing agree). -/

def is_ascii_alphanumeric (c : Char) : Bool :=
  decide (48 ≤ c.toNat ∧ c.toNat ≤ 57) || decide (65 ≤ c.toNat ∧ c.toNat ≤ 90) ||
    decide (97 ≤ c.toNat ∧ c.toNat ≤ 122)

def to_ascii_lowercase (c : Char) : Char :=
  if 65 ≤ c.toNat ∧ c.toNat ≤ 90 then Char.ofNat (c.toNat + 32) else c

def to_ascii_uppercase (c : Char) : Char :=
  if 97 ≤ c.toNat ∧ c.toNat ≤ 122 then Char.ofNat (c.toNat - 32) else c

def str_to_uppercase (s : String) : String :=
  String.mk (s.data.map to_ascii_uppercase)

theorem toNat_ofNat_valid {n : Nat} (h : n.isValidChar) : (Char.ofNat n).toNat = n := by
  rw [Char.ofNat, dif_pos h]
  rfl

theorem toNat_ofNat_small {n : Nat} (h : n < 55296) : (Char.ofNat n).toNat = n :=
  toNat_ofNat_valid (Or.inl h)

/-! ## Decimal rendering of naturals

`unique_op_name` renders the numeric suffix with Rust's `format!("{idx}")`,
i.e. as decimal digits, most significant first.  `natCharsCore` is the usual
div/mod digit loop, driven by a structurally decreasing fuel argument that is
always sufficient (`natCharsCore_fuel`). -/

def digitChar (d : Nat) : Char :=
  Char.ofNat (48 + d % 10)

def natCharsCore : Nat → Nat → List Char → List Char
  | 0, _, acc => acc
  | fuel + 1, n, acc =>
    if n < 10 then digitChar n :: acc
    else natCharsCore fuel (n / 10) (digitChar (n % 10) :: acc)

def natChars (n : Nat) : List Char :=
  natCharsCore (n + 1) n []

def natStr (n : Nat) : String :=
  String.mk (natChars n)

def charsVal (cs : List Char) : Nat :=
  cs.foldl (fun a c => a * 10 + (c.toNat - 48)) 0

theorem toNat_digitChar (d : Nat) : (digitChar d).toNat = 48 + d % 10 := by
  have h : 48 + d % 10 < 55296 := by
    have := Nat.mod_lt d (show 0 < 10 by decide)
    omega
  exact toNat_ofNat_small h

theorem natCharsCore_append (fuel : Nat) :
    ∀ n acc, natCharsCore fuel n acc = natCharsCore fuel n [] ++ acc := by
  induction fuel with
  | zero => intro n acc; rfl
  | succ fuel ih =>
    intro n acc
    by_cases h : n < 10
    · simp [natCharsCore, h]
    · simp only [natCharsCore, if_neg h]
      rw [ih (n / 10) (digitChar (n % 10) :: acc), ih (n / 10) (digitChar (n % 10) :: [])]
      simp

theorem natCharsCore_fuel (n : Nat) :
    ∀ f1 f2 acc, n < f1 → n < f2 → natCharsCore f1 n acc = natCharsCore f2 n acc := by
  induction n using Nat.strong_induction_on with
  | _ n ih =>
    intro f1 f2 acc h1 h2
    match f1, f2 with
    | f1 + 1, f2 + 1 =>
      by_cases h : n < 10
      · simp [natCharsCore, h]
      · simp only [natCharsCore, if_neg h]
        have hdiv : n / 10 < n := Nat.div_lt_self (by omega) (by decide)
        exact ih (n / 10) hdiv f1 f2 _ (by omega) (by omega)

theorem charsVal_natChars (n : Nat) : charsVal (natChars n) = n := by
  induction n using Nat.strong_induction_on with
  | _ n ih =>
    unfold natChars natCharsCore
    by_cases h : n < 10
    · simp only [if_pos h, charsVal, List.foldl_cons, List.foldl_nil]
      rw [toNat_digitChar]
      omega
    · simp only [if_neg h]
      have hdiv : n / 10 < n := Nat.div_lt_self (by omega) (by decide)
      rw [natCharsCore_append, natCharsCore_fuel (n / 10) n (n / 10 + 1) [] (by omega) (by omega)]
      have : charsVal (natChars (n / 10) ++ [digitChar (n % 10)])
          = charsVal (natChars (n / 10)) * 10 + ((digitChar (n % 10)).toNat - 48) := by
        simp [charsVal, List.foldl_append]
      rw [show natCharsCore (n / 10 + 1) (n / 10) [] = natChars (n / 10) from rfl, this,
        ih (n / 10) hdiv, toNat_digitChar]
      omega

theorem natChars_inj : Function.Injective natChars := by
  intro a b h
  rw [← charsVal_natChars a, ← charsVal_natChars b, h]

theorem natStr_inj : Function.Injective natStr := by
  intro a b h
  apply natChars_inj
  exact congrArg String.data h

/-! ## The document value model

A shallow embedding of `serde_yaml::Value`: tagged-union document values with
order-preserving mappings (`serde_yaml` mappings are backed by an
insertion-ordered map; `get` returns the first entry with an equal key). -/

inductive Value where
  | str : String → Value
  | boolean : Bool → Value
  | num : Int → Value
  | null : Value
  | seq : List Value → Value
  | map : List (Value × Value) → Value

mutual

def Value.beq : Value → Value → Bool
  | .str a, .str b => a == b
  | .boolean a, .boolean b => a == b
  | .num a, .num b => a == b
  | .null, .null => true
  | .seq a, .seq b => Value.beqList a b
  | .map a, .map b => Value.beqPairs a b
  | _, _ => false

def Value.beqList : List Value → List Value → Bool
  | [], [] => true
  | x :: xs, y :: ys => Value.beq x y && Value.beqList xs ys
  | _, _ => false

def Value.beqPairs : List (Value × Value) → List (Value × Value) → Bool
  | [], [] => true
  | (k, v) :: xs, (l, w) :: ys => Value.beq k l && Value.beq v w && Value.beqPairs xs ys
  | _, _ => false

end

def Value.asStr : Value → Option String
  | .str s => some s
  | _ => none

def Value.asBool : Value → Option Bool
  | .boolean b => some b
  | _ => none

def Value.asSequence : Value → Option (List Value)
  | .seq xs => some xs
  | _ => none

def Value.asMapping : Value → Option (List (Value × Value))
  | .map es => some es
  | _ => none

/-- `Mapping::get`: first entry whose key equals the probe. -/
def mapGet (es : List (Value × Value)) (k : Value) : Option Value :=
  match es with
  | [] => none
  | (k', v) :: rest => if Value.beq k k' then some v else mapGet rest k

/-- `Value::get` with a string index: succeeds only on mappings. -/
def Value.get (v : Value) (k : String) : Option Value :=
  match v with
  | .map es => mapGet es (.str k)
  | _ => none

/-! ## The command-tree data model (`src/command_tree.rs`) -/

structure ParamDef where
  name : String
  flag : String
  location : String
  required : Bool
  list : Bool
  schema_type : Option String
  description : Option String
deriving DecidableEq, Repr

structure Operation where
  name : String
  display_name : String
  method : String
  path : String
  summary : Option String
  description : Option String
  parameters : List ParamDef
  has_body : Bool
deriving DecidableEq, Repr

structure Resource where
  name : String
  display_name : String
  ops : List Operation
deriving DecidableEq, Repr

structure CommandTree where
  version : Nat
  endpoint : String
  resources : List Resource
deriving DecidableEq, Repr

/-! ## Sorted association maps

A model of Rust's `BTreeMap`: an association list kept sorted by key, with
`amInsert` (covering both `insert` and `entry(..).or_insert_with(..)` followed
by an in-place update) and `amLookup`.  Iteration / `into_values` corresponds
to reading the list (sorted by key) front to back. -/

def amInsert {κ α : Type} [DecidableEq κ] (lt : κ → κ → Bool) (k : κ) (f : Option α → α) :
    List (κ × α) → List (κ × α)
  | [] => [(k, f none)]
  | (k', v) :: rest =>
    if lt k k' then (k, f none) :: (k', v) :: rest
    else if k = k' then (k, f (some v)) :: rest
    else (k', v) :: amInsert lt k f rest

def amLookup {κ α : Type} [DecidableEq κ] (k : κ) : List (κ × α) → Option α
  | [] => none
  | (k', v) :: rest => if k = k' then some v else amLookup k rest

/-- The `Ord` comparison on `String` used by `BTreeMap<String, _>`:
lexicographic comparison of the character sequences (UTF-8 byte order and
code-point order agree). -/
def strLtB (a b : String) : Bool :=
  decide (a.data < b.data)

/-- The lexicographic `Ord` on `(String, String)` used by
`BTreeMap<(String, String), _>` in `merge_parameters`. -/
def pairLtB (a b : String × String) : Bool :=
  strLtB a.1 b.1 || (a.1 == b.1 && strLtB a.2 b.2)

/-! ## `normalize_name` and `normalize_flag` -/

/-- The character scan of `normalize_name`: lowercase alphanumerics are kept,
any run of other characters collapses to a single dash (`dash` is the
"last pushed char was a dash" flag of the Rust loop). -/
def normAux : List Char → Bool → List Char
  | [], _ => []
  | c :: cs, dash =>
    if is_ascii_alphanumeric c then to_ascii_lowercase c :: normAux cs false
    else if dash then normAux cs dash
    else '-' :: normAux cs true

/-- `str::trim_matches('-')`: remove leading and trailing dashes. -/
def trimDashes (l : List Char) : List Char :=
  (l.dropWhile (fun c => c == '-')).rdropWhile (fun c => c == '-')

def normalize_name (input : String) : String :=
  String.mk (trimDashes (normAux input.data false))

/-- `str::replace("--", "-")`: scan left to right, replacing non-overlapping
occurrences of two consecutive dashes by a single dash. -/
def replaceDD : List Char → List Char
  | [] => []
  | [c] => [c]
  | a :: b :: rest =>
    if a = '-' ∧ b = '-' then '-' :: replaceDD rest
    else a :: replaceDD (b :: rest)

def normalize_flag (input : String) : String :=
  String.mk (replaceDD (normalize_name input).data)

/-! ## `parse_schema`, `collect_parameters`, `merge_parameters` -/

/-- The body of `parse_schema` once the schema is a mapping. -/
def parse_schema_map (schema : List (Value × Value)) : Option String × Bool :=
  let schema_type := (mapGet schema (.str "type")).bind Value.asStr
  let lst := schema_type == some "array"
  let schema_type :=
    if lst then
      match ((mapGet schema (.str "items")).bind Value.asMapping).bind
          (fun items => (mapGet items (.str "type")).bind Value.asStr) with
      | some t => some t
      | none => some "array"
    else schema_type
  (schema_type, lst)

def parse_schema (value : Option Value) : Option String × Bool :=
  match value.bind Value.asMapping with
  | none => (none, false)
  | some schema => parse_schema_map schema

def collect_parameters (value : Option Value) : List ParamDef :=
  match value.bind Value.asSequence with
  | none => []
  | some items =>
    items.foldl (fun out item =>
      match item.asMapping with
      | none => out
      | some pm =>
        match (mapGet pm (.str "name")).bind Value.asStr,
            (mapGet pm (.str "in")).bind Value.asStr with
        | some n, some loc =>
          let required := ((mapGet pm (.str "required")).bind Value.asBool).getD false
          let description := (mapGet pm (.str "description")).bind Value.asStr
          let st := parse_schema (mapGet pm (.str "schema"))
          out ++ [{ name := n, flag := normalize_flag n, location := loc,
                    required := required, list := st.2, schema_type := st.1,
                    description := description }]
        | _, _ => out) []

def paramKey (p : ParamDef) : String × String :=
  (p.name, p.location)

def merge_parameters (base override_params : List ParamDef) : List ParamDef :=
  let m := base.foldl (fun m p => amInsert pairLtB (paramKey p) (fun _ => p) m) []
  let m := override_params.foldl (fun m p => amInsert pairLtB (paramKey p) (fun _ => p) m) m
  m.map Prod.snd

/-! ## `parse_major_version` -/

/-- Rust's `str::parse::<u32>`: optional leading `+`, at least one digit,
all digits, value below `2^32`. -/
def parseU32 (s : List Char) : Option Nat :=
  let digits := match s with
    | '+' :: rest => rest
    | _ => s
  if digits.isEmpty then none
  else if digits.all Char.isDigit then
    let v := digits.foldl (fun a c => a * 10 + (c.toNat - 48)) 0
    if v < 4294967296 then some v else none
  else none

def parse_major_version (input : String) : Option Nat :=
  parseU32 (input.data.takeWhile (fun c => c != '.'))

/-! ## `unique_op_name` -/

theorem string_data_append (s t : String) : (s ++ t).data = s.data ++ t.data := by
  cases s
  cases t
  rfl

/-- The numeric-suffix search space is infinite while the set of existing
names is finite, so a free candidate always exists. -/
theorem suffix_free_exists (existing : List String) (candidate : String) :
    ∃ k, (candidate ++ "-" ++ natStr (k + 2)) ∉ existing := by
  by_contra hall
  push_neg at hall
  have hinj : Function.Injective (fun k : Nat => candidate ++ "-" ++ natStr (k + 2)) := by
    intro a b hab
    simp only at hab
    have hdata := congrArg String.data hab
    rw [string_data_append, string_data_append, string_data_append, string_data_append]
      at hdata
    have := List.append_cancel_left hdata
    have hchars : natChars (a + 2) = natChars (b + 2) := this
    have := natChars_inj hchars
    omega
  have hsub : Finset.image (fun k : Nat => candidate ++ "-" ++ natStr (k + 2))
      (Finset.range (existing.length + 1)) ⊆ existing.toFinset := by
    intro s hs
    rw [Finset.mem_image] at hs
    obtain ⟨k, _, rfl⟩ := hs
    exact List.mem_toFinset.mpr (hall k)
  have hcard := Finset.card_le_card hsub
  rw [Finset.card_image_of_injective _ hinj, Finset.card_range] at hcard
  have := existing.toFinset_card_le
  omega

def unique_op_name (resource : Resource) (base method : String) : String :=
  let existing := resource.ops.map Operation.name
  if base ∉ existing then base
  else
    let candidate := base ++ "-" ++ method
    if candidate ∉ existing then candidate
    else candidate ++ "-" ++ natStr (Nat.find (suffix_free_exists existing candidate) + 2)

/-! ## `build_command_tree` -/

def methods : List String :=
  ["get", "post", "put", "patch", "delete", "options", "head"]

/-- The per-operation data computed before the tag fan-out loop. -/
structure OpInfo where
  op_id : String
  method : String
  path : String
  summary : Option String
  description : Option String
  parameters : List ParamDef
  has_body : Bool

def mkOperation (info : OpInfo) (op_name : String) : Operation :=
  { name := op_name
    display_name := info.op_id
    method := str_to_uppercase info.method
    path := info.path
    summary := info.summary
    description := info.description
    parameters := info.parameters
    has_body := info.has_body }

/-- The body of `entry(res_name).or_insert_with(..)` followed by the
`unique_op_name` call and the `ops.push(..)`: find-or-create the resource for
`tag`, then append a freshly named operation to it. -/
def tagStep (info : OpInfo) (tag : String) (prev : Option Resource) : Resource :=
  let res_name := normalize_name tag
  let resource := prev.getD { name := res_name, display_name := tag, ops := [] }
  { resource with
    ops := resource.ops ++
      [mkOperation info (unique_op_name resource (normalize_name info.op_id) info.method)] }

/-- One iteration of the `for tag_value in tags` loop: non-string tags are
skipped with `continue`. -/
def addOpForTag (info : OpInfo) (m : List (String × Resource)) (tag_value : Value) :
    List (String × Resource) :=
  match tag_value.asStr with
  | none => m
  | some tag => amInsert strLtB (normalize_name tag) (tagStep info tag) m

def processOp (m : List (String × Resource)) (method path : String)
    (op_map : List (Value × Value)) (path_params : List ParamDef) :
    List (String × Resource) :=
  let op_id := ((mapGet op_map (.str "operationId")).bind Value.asStr).getD
    (method ++ "_" ++ path)
  let summary := (mapGet op_map (.str "summary")).bind Value.asStr
  let description := (mapGet op_map (.str "description")).bind Value.asStr
  let op_params := collect_parameters (mapGet op_map (.str "parameters"))
  let parameters := merge_parameters path_params op_params
  let has_body := (mapGet op_map (.str "requestBody")).isSome
  let tags := ((mapGet op_map (.str "tags")).bind Value.asSequence).getD []
  tags.foldl
    (addOpForTag { op_id, method, path, summary, description, parameters, has_body }) m

/-- The body of one `for method in methods` iteration once the method is
present: the operation value must be a mapping. -/
def methodRun (path : String) (path_params : List ParamDef)
    (m : List (String × Resource)) (method : String) (op_value : Value) :
    Except String (List (String × Resource)) :=
  match op_value.asMapping with
  | none => Except.error "op must be mapping"
  | some op_map => Except.ok (processOp m method path op_map path_params)

/-- One iteration of the `for method in methods` loop: a missing method is
skipped. -/
def methodStep (path : String) (path_map : List (Value × Value))
    (path_params : List ParamDef) (m : List (String × Resource)) (method : String) :
    Except String (List (String × Resource)) :=
  match mapGet path_map (.str method) with
  | none => Except.ok m
  | some op_value => methodRun path path_params m method op_value

def processPathItem (m : List (String × Resource)) (path : String)
    (path_map : List (Value × Value)) : Except String (List (String × Resource)) :=
  methods.foldlM
    (methodStep path path_map (collect_parameters (mapGet path_map (.str "parameters")))) m

/-- The body of one `for (path_value, path_item) in paths` iteration once the
key is a string: the path item must be a mapping. -/
def pathRun (m : List (String × Resource)) (path : String) (path_item : Value) :
    Except String (List (String × Resource)) :=
  match path_item.asMapping with
  | none => Except.error "path item must be mapping"
  | some path_map => processPathItem m path path_map

/-- One iteration of the `for (path_value, path_item) in paths` loop: the key
must be a string. -/
def pathStep (m : List (String × Resource)) (e : Value × Value) :
    Except String (List (String × Resource)) :=
  match e.1.asStr with
  | none => Except.error "path key must be string"
  | some path => pathRun m path e.2

def processPaths (entries : List (Value × Value)) :
    Except String (List (String × Resource)) :=
  entries.foldlM pathStep []

def endpointOf (doc : Value) : String :=
  (((((doc.get "servers").bind Value.asSequence).bind List.head?).bind
    Value.asMapping).bind (fun server => (mapGet server (.str "url")).bind Value.asStr)).getD
    "https://api.cloudflare.com/client/v4"

def versionOf (doc : Value) : Nat :=
  ((((doc.get "info").bind Value.asMapping).bind
    (fun info => (mapGet info (.str "version")).bind Value.asStr)).bind
    parse_major_version).getD 4

/-- Assembling the final tree from the traversal's outcome, with the `?`
error propagation of the Rust function. -/
def buildAssemble (doc : Value) (r : Except String (List (String × Resource))) :
    Except String CommandTree :=
  match r with
  | Except.error e => Except.error e
  | Except.ok m =>
    Except.ok { version := versionOf doc, endpoint := endpointOf doc,
                resources := m.map Prod.snd }

def build_command_tree (doc : Value) : Except String CommandTree :=
  match (doc.get "paths").bind Value.asMapping with
  | none => Except.error "openapi missing paths"
  | some entries => buildAssemble doc (processPaths entries)

/-! ## Properties of `normalize_name` -/

/-- Lowercase ASCII alphanumeric: a decimal digit or a lowercase letter. -/
def isLowerAlnumB (c : Char) : Bool :=
  decide (48 ≤ c.toNat ∧ c.toNat ≤ 57) || decide (97 ≤ c.toNat ∧ c.toNat ≤ 122)

/-- Adjacent characters are not both dashes. -/
def noDD (a b : Char) : Prop :=
  ¬(a = '-' ∧ b = '-')

theorem lower_of_alnum {c : Char} (h : is_ascii_alphanumeric c = true) :
    isLowerAlnumB (to_ascii_lowercase c) = true := by
  simp only [is_ascii_alphanumeric, Bool.or_eq_true, decide_eq_true_eq] at h
  unfold to_ascii_lowercase isLowerAlnumB
  rcases h with (h | h) | h
  · rw [if_neg (by omega)]
    simp only [Bool.or_eq_true, decide_eq_true_eq]
    omega
  · rw [if_pos (by omega)]
    simp only [Bool.or_eq_true, decide_eq_true_eq]
    rw [toNat_ofNat_small (by omega)]
    omega
  · rw [if_neg (by omega)]
    simp only [Bool.or_eq_true, decide_eq_true_eq]
    omega

theorem lowerAlnum_ne_dash {c : Char} (h : isLowerAlnumB c = true) : c ≠ '-' := by
  intro hc
  subst hc
  revert h
  decide

theorem normAux_mem : ∀ (cs : List Char) (dash : Bool) (c : Char), c ∈ normAux cs dash →
    isLowerAlnumB c = true ∨ c = '-' := by
  intro cs
  induction cs with
  | nil => intro dash c h; simp [normAux] at h
  | cons a cs ih =>
    intro dash c h
    simp only [normAux] at h
    by_cases ha : is_ascii_alphanumeric a = true
    · rw [if_pos ha] at h
      rcases List.mem_cons.mp h with rfl | h
      · exact Or.inl (lower_of_alnum ha)
      · exact ih false c h
    · rw [if_neg ha] at h
      by_cases hd : dash = true
      · rw [if_pos hd] at h
        exact ih dash c h
      · rw [if_neg hd] at h
        rcases List.mem_cons.mp h with rfl | h
        · exact Or.inr rfl
        · exact ih true c h

theorem normAux_head_true : ∀ (cs : List Char) (c : Char),
    (normAux cs true).head? = some c → isLowerAlnumB c = true := by
  intro cs
  induction cs with
  | nil => intro c h; simp [normAux] at h
  | cons a cs ih =>
    intro c h
    simp only [normAux, if_pos rfl] at h
    by_cases ha : is_ascii_alphanumeric a = true
    · rw [if_pos ha] at h
      simp only [List.head?_cons, Option.some.injEq] at h
      subst h
      exact lower_of_alnum ha
    · rw [if_neg ha] at h
      exact ih c h

theorem normAux_chain : ∀ (cs : List Char) (dash : Bool),
    List.Chain' noDD (normAux cs dash) := by
  intro cs
  induction cs with
  | nil => intro dash; simp [normAux]
  | cons a cs ih =>
    intro dash
    simp only [normAux]
    by_cases ha : is_ascii_alphanumeric a = true
    · rw [if_pos ha]
      rw [List.chain'_cons']
      refine ⟨?_, ih false⟩
      intro y _
      intro hcontra
      exact lowerAlnum_ne_dash (lower_of_alnum ha) hcontra.1
    · rw [if_neg ha]
      by_cases hd : dash = true
      · rw [if_pos hd]
        exact ih dash
      · rw [if_neg hd]
        rw [List.chain'_cons']
        refine ⟨?_, ih true⟩
        intro y hy hcontra
        exact lowerAlnum_ne_dash (normAux_head_true cs y hy) hcontra.2

theorem trimDashes_within (l : List Char) : trimDashes l <:+: l :=
  (List.rdropWhile_prefix _ _).isInfix.trans (List.dropWhile_suffix _).isInfix

theorem trimDashes_head (l : List Char) (c : Char)
    (hc : (trimDashes l).head? = some c) : c ≠ '-' := by
  have hne : trimDashes l ≠ [] := by
    intro h
    rw [h] at hc
    simp at hc
  have hpre : trimDashes l <+: l.dropWhile (fun c => c == '-') :=
    List.rdropWhile_prefix _ _
  have hdne : l.dropWhile (fun c => c == '-') ≠ [] := hpre.ne_nil hne
  rw [List.head?_eq_head hne] at hc
  have hhead := hpre.head hne
  have hnot := List.head_dropWhile_not (fun c => c == '-') l hdne
  injection hc with hc
  subst hc
  rw [hhead]
  intro heq
  rw [heq] at hnot
  simp at hnot

theorem trimDashes_getLast (l : List Char) (c : Char)
    (hc : (trimDashes l).getLast? = some c) : c ≠ '-' := by
  have hne : trimDashes l ≠ [] := by
    intro h
    rw [h] at hc
    simp at hc
  have hnot := List.rdropWhile_last_not (fun c => c == '-')
    (l.dropWhile (fun c => c == '-')) hne
  rw [List.getLast?_eq_getLast _ hne] at hc
  injection hc with hc
  subst hc
  intro heq
  unfold trimDashes at heq
  rw [heq] at hnot
  simp at hnot

theorem string_mk_data (s : String) : String.mk s.data = s := by
  cases s
  rfl

/-- On a string with no two consecutive dashes, the double-dash replacement
of `normalize_flag` does nothing. -/
theorem replaceDD_of_chain : ∀ (l : List Char), List.Chain' noDD l → replaceDD l = l
  | [], _ => rfl
  | [_], _ => rfl
  | a :: b :: rest, h => by
    have hc := List.chain'_cons.mp h
    simp only [replaceDD]
    rw [if_neg hc.1, replaceDD_of_chain (b :: rest) hc.2]

/-! ## Properties of the sorted association maps -/

theorem amLookup_eq_none {κ α : Type} [DecidableEq κ] (k : κ) :
    ∀ m : List (κ × α), (∀ p ∈ m, p.1 ≠ k) → amLookup k m = none
  | [], _ => rfl
  | (k', v) :: rest, h => by
    have hne : k ≠ k' := fun he => h (k', v) (List.mem_cons_self _ _) he.symm
    simp only [amLookup, if_neg hne]
    exact amLookup_eq_none k rest fun p hp => h p (List.mem_cons_of_mem _ hp)

theorem amLookup_insert_self {κ α : Type} [DecidableEq κ] (lt : κ → κ → Bool)
    (hirr : ∀ a, lt a a = false)
    (htrans : ∀ a b c, lt a b = true → lt b c = true → lt a c = true)
    (k : κ) (f : Option α → α) :
    ∀ m : List (κ × α), List.Pairwise (fun p q : κ × α => lt p.1 q.1 = true) m →
      amLookup k (amInsert lt k f m) = some (f (amLookup k m))
  | [], _ => by simp [amInsert, amLookup]
  | (k', v) :: rest, hm => by
    rcases List.pairwise_cons.mp hm with ⟨hhead, htail⟩
    by_cases h1 : lt k k' = true
    · have hne : k ≠ k' := by
        intro he
        rw [he] at h1
        rw [hirr k'] at h1
        exact Bool.false_ne_true h1
      have hrest : amLookup k rest = none := by
        apply amLookup_eq_none
        intro p hp he
        have h2 := hhead p hp
        rw [he] at h2
        have h3 := htrans _ _ _ h1 h2
        rw [hirr k] at h3
        exact Bool.false_ne_true h3
      simp only [amInsert, if_pos h1, amLookup, if_pos rfl, if_neg hne, if_true, hrest]
    · by_cases h2 : k = k'
      · simp only [amInsert, if_neg h1, if_pos h2, amLookup, if_pos rfl, if_pos h2,
          if_true]
      · simp only [amInsert, if_neg h1, if_neg h2, amLookup, if_neg h2]
        exact amLookup_insert_self lt hirr htrans k f rest htail

theorem amLookup_insert_ne {κ α : Type} [DecidableEq κ] (lt : κ → κ → Bool)
    (k j : κ) (f : Option α → α) (hne : j ≠ k) :
    ∀ m : List (κ × α), amLookup j (amInsert lt k f m) = amLookup j m
  | [] => by simp [amInsert, amLookup, if_neg hne]
  | (k', v) :: rest => by
    by_cases h1 : lt k k' = true
    · simp only [amInsert, if_pos h1, amLookup, if_neg hne]
    · by_cases h2 : k = k'
      · subst h2
        simp only [amInsert, if_neg h1, if_pos rfl, amLookup, if_neg hne]
      · simp only [amInsert, if_neg h1, if_neg h2, amLookup]
        by_cases h3 : j = k'
        · rw [if_pos h3, if_pos h3]
        · rw [if_neg h3, if_neg h3]
          exact amLookup_insert_ne lt k j f hne rest

theorem amInsert_mem {κ α : Type} [DecidableEq κ] (lt : κ → κ → Bool)
    (k : κ) (f : Option α → α) :
    ∀ (m : List (κ × α)) (p : κ × α), p ∈ amInsert lt k f m → p.1 = k ∨ p ∈ m
  | [], p, hp => by
    simp only [amInsert, List.mem_singleton] at hp
    subst hp
    exact Or.inl rfl
  | (k', v) :: rest, p, hp => by
    by_cases h1 : lt k k' = true
    · rw [amInsert, if_pos h1] at hp
      rcases List.mem_cons.mp hp with rfl | hp
      · exact Or.inl rfl
      · exact Or.inr hp
    · by_cases h2 : k = k'
      · rw [amInsert, if_neg h1, if_pos h2] at hp
        rcases List.mem_cons.mp hp with rfl | hp
        · exact Or.inl rfl
        · exact Or.inr (List.mem_cons_of_mem _ hp)
      · rw [amInsert, if_neg h1, if_neg h2] at hp
        rcases List.mem_cons.mp hp with rfl | hp
        · exact Or.inr (List.mem_cons_self _ _)
        · rcases amInsert_mem lt k f rest p hp with h | h
          · exact Or.inl h
          · exact Or.inr (List.mem_cons_of_mem _ h)

theorem amInsert_entries {κ α : Type} [DecidableEq κ] (lt : κ → κ → Bool)
    (k : κ) (f : Option α → α) (P : κ → α → Prop)
    (h0 : P k (f none)) (h1 : ∀ v, P k v → P k (f (some v))) :
    ∀ m : List (κ × α), (∀ p ∈ m, P p.1 p.2) → ∀ p ∈ amInsert lt k f m, P p.1 p.2
  | [], _, p, hp => by
    simp only [amInsert, List.mem_singleton] at hp
    subst hp
    exact h0
  | (k', v) :: rest, hm, p, hp => by
    by_cases hlt : lt k k' = true
    · rw [amInsert, if_pos hlt] at hp
      rcases List.mem_cons.mp hp with rfl | hp
      · exact h0
      · exact hm p hp
    · by_cases heq : k = k'
      · rw [amInsert, if_neg hlt, if_pos heq] at hp
        rcases List.mem_cons.mp hp with rfl | hp
        · exact h1 v (heq ▸ hm (k', v) (List.mem_cons_self _ _))
        · exact hm p (List.mem_cons_of_mem _ hp)
      · rw [amInsert, if_neg hlt, if_neg heq] at hp
        rcases List.mem_cons.mp hp with rfl | hp
        · exact hm (k', v) (List.mem_cons_self _ _)
        · exact amInsert_entries lt k f P h0 h1 rest
            (fun q hq => hm q (List.mem_cons_of_mem _ hq)) p hp

theorem amInsert_sorted {κ α : Type} [DecidableEq κ] (lt : κ → κ → Bool)
    (htrans : ∀ a b c, lt a b = true → lt b c = true → lt a c = true)
    (htotal : ∀ a b : κ, lt a b = false → a ≠ b → lt b a = true)
    (k : κ) (f : Option α → α) :
    ∀ m : List (κ × α), List.Pairwise (fun p q : κ × α => lt p.1 q.1 = true) m →
      List.Pairwise (fun p q : κ × α => lt p.1 q.1 = true) (amInsert lt k f m)
  | [], _ => by
    simp [amInsert]
  | (k', v) :: rest, hm => by
    rcases List.pairwise_cons.mp hm with ⟨hhead, htail⟩
    by_cases h1 : lt k k' = true
    · rw [amInsert, if_pos h1]
      refine List.pairwise_cons.mpr ⟨?_, hm⟩
      intro q hq
      rcases List.mem_cons.mp hq with rfl | hq
      · exact h1
      · exact htrans _ _ _ h1 (hhead q hq)
    · by_cases h2 : k = k'
      · rw [amInsert, if_neg h1, if_pos h2]
        subst h2
        exact List.pairwise_cons.mpr ⟨hhead, htail⟩
      · rw [amInsert, if_neg h1, if_neg h2]
        refine List.pairwise_cons.mpr ⟨?_, amInsert_sorted lt htrans htotal k f rest htail⟩
        intro q hq
        rcases amInsert_mem lt k f rest q hq with hqk | hq
        · rw [hqk]
          exact htotal k k' (Bool.not_eq_true _ ▸ h1) h2
        · exact hhead q hq

/-! ## The comparator facts for `strLtB` and `pairLtB` -/

theorem strLtB_iff (a b : String) : strLtB a b = true ↔ a < b := by
  rw [strLtB, decide_eq_true_eq]
  exact String.lt_iff_toList_lt.symm

theorem strLtB_irrefl (a : String) : strLtB a a = false := by
  rw [Bool.eq_false_iff]
  intro h
  exact lt_irrefl a ((strLtB_iff a a).mp h)

theorem strLtB_trans (a b c : String) (h1 : strLtB a b = true) (h2 : strLtB b c = true) :
    strLtB a c = true :=
  (strLtB_iff a c).mpr (lt_trans ((strLtB_iff a b).mp h1) ((strLtB_iff b c).mp h2))

theorem strLtB_total (a b : String) (h1 : strLtB a b = false) (h2 : a ≠ b) :
    strLtB b a = true := by
  have hn : ¬a < b := by
    intro hl
    rw [(strLtB_iff a b).mpr hl] at h1
    exact Bool.false_ne_true h1.symm
  rcases lt_trichotomy a b with h | h | h
  · exact absurd h hn
  · exact absurd h h2
  · exact (strLtB_iff b a).mpr h

theorem pairLtB_irrefl (a : String × String) : pairLtB a a = false := by
  rw [pairLtB, strLtB_irrefl, strLtB_irrefl]
  simp

theorem pairLtB_trans (a b c : String × String)
    (h1 : pairLtB a b = true) (h2 : pairLtB b c = true) : pairLtB a c = true := by
  rw [pairLtB, Bool.or_eq_true, Bool.and_eq_true, beq_iff_eq] at h1 h2 ⊢
  rcases h1 with h1 | ⟨h1e, h1s⟩
  · rcases h2 with h2 | ⟨h2e, h2s⟩
    · exact Or.inl (strLtB_trans _ _ _ h1 h2)
    · exact Or.inl (h2e ▸ h1)
  · rcases h2 with h2 | ⟨h2e, h2s⟩
    · exact Or.inl (h1e ▸ h2)
    · exact Or.inr ⟨h1e.trans h2e, strLtB_trans _ _ _ h1s h2s⟩

theorem pairLtB_total (a b : String × String) (h1 : pairLtB a b = false) (h2 : a ≠ b) :
    pairLtB b a = true := by
  rw [pairLtB, Bool.or_eq_false_iff, Bool.and_eq_false_iff] at h1
  rw [pairLtB, Bool.or_eq_true, Bool.and_eq_true, beq_iff_eq]
  rcases h1 with ⟨hf, hs⟩
  by_cases he : a.1 = b.1
  · rcases hs with hs | hs
    · rw [beq_eq_false_iff_ne] at hs
      exact absurd he hs
    · have hsnd : a.2 ≠ b.2 := by
        intro hc
        exact h2 (Prod.ext he hc)
      exact Or.inr ⟨he.symm, strLtB_total a.2 b.2 hs hsnd⟩
  · exact Or.inl (strLtB_total a.1 b.1 hf he)

/-! ## Properties of `unique_op_name` -/

theorem unique_op_name_not_mem (resource : Resource) (base method : String) :
    unique_op_name resource base method ∉ resource.ops.map Operation.name := by
  unfold unique_op_name
  by_cases h1 : base ∉ resource.ops.map Operation.name
  · rw [if_pos h1]
    exact h1
  · rw [if_neg h1]
    by_cases h2 : base ++ "-" ++ method ∉ resource.ops.map Operation.name
    · rw [if_pos h2]
      exact h2
    · rw [if_neg h2]
      exact Nat.find_spec (suffix_free_exists (resource.ops.map Operation.name)
        (base ++ "-" ++ method))

/-! ## The construction invariant of the resource map -/

/-- Well-formedness of the in-construction resource map: entries are sorted
strictly by key, each stored resource is named by its key, and its operation
names are pairwise distinct. -/
def RMapWF (m : List (String × Resource)) : Prop :=
  List.Pairwise (fun p q : String × Resource => strLtB p.1 q.1 = true) m ∧
  ∀ p ∈ m, p.2.name = p.1 ∧ (p.2.ops.map Operation.name).Nodup

theorem appendOp_nodup (r : Resource) (op : Operation)
    (hr : (r.ops.map Operation.name).Nodup)
    (hop : op.name ∉ r.ops.map Operation.name) :
    ((r.ops ++ [op]).map Operation.name).Nodup := by
  rw [List.map_append, List.nodup_append_comm]
  simp only [List.map_cons, List.map_nil, List.singleton_append, List.nodup_cons]
  exact ⟨hop, hr⟩

theorem addOpForTag_none (info : OpInfo) (m : List (String × Resource)) (tagv : Value)
    (h : tagv.asStr = none) : addOpForTag info m tagv = m := by
  unfold addOpForTag
  rw [h]

theorem addOpForTag_some (info : OpInfo) (m : List (String × Resource)) (tagv : Value)
    (tag : String) (h : tagv.asStr = some tag) :
    addOpForTag info m tagv = amInsert strLtB (normalize_name tag) (tagStep info tag) m := by
  unfold addOpForTag
  rw [h]

theorem tagStep_none (info : OpInfo) (tag : String) :
    tagStep info tag none =
      { name := normalize_name tag, display_name := tag,
        ops := [mkOperation info
          (unique_op_name { name := normalize_name tag, display_name := tag, ops := [] }
            (normalize_name info.op_id) info.method)] } :=
  rfl

theorem tagStep_some (info : OpInfo) (tag : String) (v : Resource) :
    tagStep info tag (some v) =
      { v with ops := v.ops ++
          [mkOperation info (unique_op_name v (normalize_name info.op_id) info.method)] } :=
  rfl

theorem addOpForTag_WF (info : OpInfo) (m : List (String × Resource)) (tagv : Value)
    (h : RMapWF m) : RMapWF (addOpForTag info m tagv) := by
  cases htag : tagv.asStr with
  | none =>
    rw [addOpForTag_none info m tagv htag]
    exact h
  | some tag =>
    rw [addOpForTag_some info m tagv tag htag]
    constructor
    · exact amInsert_sorted strLtB strLtB_trans strLtB_total _ _ m h.1
    · apply amInsert_entries strLtB (normalize_name tag) (tagStep info tag)
        (fun (k : String) (r : Resource) => r.name = k ∧ (r.ops.map Operation.name).Nodup)
      · rw [tagStep_none]
        exact ⟨rfl, by simp⟩
      · intro v hv
        rw [tagStep_some]
        exact ⟨hv.1, appendOp_nodup v _ hv.2 (unique_op_name_not_mem v _ _)⟩
      · exact h.2

theorem foldl_preserves {β σ : Type} (g : σ → β → σ) (P : σ → Prop)
    (hstep : ∀ s b, P s → P (g s b)) : ∀ (l : List β) (s : σ), P s → P (l.foldl g s)
  | [], _, h => h
  | b :: l, s, h => foldl_preserves g P hstep l (g s b) (hstep s b h)

theorem processOp_WF (m : List (String × Resource)) (method path : String)
    (op_map : List (Value × Value)) (path_params : List ParamDef)
    (h : RMapWF m) : RMapWF (processOp m method path op_map path_params) := by
  unfold processOp
  exact foldl_preserves _ RMapWF (fun s b hs => addOpForTag_WF _ s b hs) _ m h

/-! ## Stepping equations for the `Except`-valued traversal -/

theorem methodStep_skip (path : String) (path_map : List (Value × Value))
    (path_params : List ParamDef) (m : List (String × Resource)) (method : String)
    (h : mapGet path_map (.str method) = none) :
    methodStep path path_map path_params m method = Except.ok m := by
  unfold methodStep
  rw [h]

theorem methodStep_bad (path : String) (path_map : List (Value × Value))
    (path_params : List ParamDef) (m : List (String × Resource)) (method : String)
    (op_value : Value) (h : mapGet path_map (.str method) = some op_value)
    (hm : op_value.asMapping = none) :
    methodStep path path_map path_params m method = Except.error "op must be mapping" := by
  unfold methodStep
  rw [h]
  show methodRun path path_params m method op_value = _
  unfold methodRun
  rw [hm]

theorem methodStep_run (path : String) (path_map : List (Value × Value))
    (path_params : List ParamDef) (m : List (String × Resource)) (method : String)
    (op_value : Value) (op_map : List (Value × Value))
    (h : mapGet path_map (.str method) = some op_value)
    (hm : op_value.asMapping = some op_map) :
    methodStep path path_map path_params m method =
      Except.ok (processOp m method path op_map path_params) := by
  unfold methodStep
  rw [h]
  show methodRun path path_params m method op_value = _
  unfold methodRun
  rw [hm]

theorem pathStep_badkey (m : List (String × Resource)) (e : Value × Value)
    (h : e.1.asStr = none) : pathStep m e = Except.error "path key must be string" := by
  unfold pathStep
  rw [h]

theorem pathStep_baditem (m : List (String × Resource)) (e : Value × Value) (path : String)
    (h : e.1.asStr = some path) (hm : e.2.asMapping = none) :
    pathStep m e = Except.error "path item must be mapping" := by
  unfold pathStep
  rw [h]
  show pathRun m path e.2 = _
  unfold pathRun
  rw [hm]

theorem pathStep_run (m : List (String × Resource)) (e : Value × Value) (path : String)
    (path_map : List (Value × Value)) (h : e.1.asStr = some path)
    (hm : e.2.asMapping = some path_map) :
    pathStep m e = processPathItem m path path_map := by
  unfold pathStep
  rw [h]
  show pathRun m path e.2 = _
  unfold pathRun
  rw [hm]

theorem build_command_tree_nopaths (doc : Value)
    (h : (doc.get "paths").bind Value.asMapping = none) :
    build_command_tree doc = Except.error "openapi missing paths" := by
  unfold build_command_tree
  rw [h]

theorem build_command_tree_err (doc : Value) (entries : List (Value × Value)) (e : String)
    (h : (doc.get "paths").bind Value.asMapping = some entries)
    (hp : processPaths entries = Except.error e) :
    build_command_tree doc = Except.error e := by
  unfold build_command_tree
  rw [h]
  show buildAssemble doc (processPaths entries) = _
  unfold buildAssemble
  rw [hp]

theorem build_command_tree_ok (doc : Value) (entries : List (Value × Value))
    (m : List (String × Resource))
    (h : (doc.get "paths").bind Value.asMapping = some entries)
    (hp : processPaths entries = Except.ok m) :
    build_command_tree doc =
      Except.ok { version := versionOf doc, endpoint := endpointOf doc,
                  resources := m.map Prod.snd } := by
  unfold build_command_tree
  rw [h]
  show buildAssemble doc (processPaths entries) = _
  unfold buildAssemble
  rw [hp]

theorem foldlM_except_preserves {β σ : Type} (g : σ → β → Except String σ) (P : σ → Prop)
    (hstep : ∀ s b s', P s → g s b = .ok s' → P s') :
    ∀ (l : List β) (s s' : σ), P s → l.foldlM g s = .ok s' → P s'
  | [], s, s', h, he => by
    simp only [List.foldlM_nil] at he
    cases he
    exact h
  | b :: l, s, s', h, he => by
    rw [List.foldlM_cons] at he
    cases hg : g s b with
    | error e =>
      rw [hg] at he
      rw [show ((Except.error e : Except String σ) >>= fun s1 => List.foldlM g s1 l)
        = Except.error e from rfl] at he
      cases he
    | ok s1 =>
      rw [hg] at he
      rw [show ((Except.ok s1 : Except String σ) >>= fun s1 => List.foldlM g s1 l)
        = List.foldlM g s1 l from rfl] at he
      exact foldlM_except_preserves g P hstep l s1 s' (hstep s b s1 h hg) he

theorem processPathItem_WF (m : List (String × Resource)) (path : String)
    (path_map : List (Value × Value)) (m' : List (String × Resource))
    (h : RMapWF m) (he : processPathItem m path path_map = .ok m') : RMapWF m' := by
  unfold processPathItem at he
  refine foldlM_except_preserves _ RMapWF ?_ methods m m' h he
  intro s b s' hs hg
  cases hget : mapGet path_map (Value.str b) with
  | none =>
    rw [methodStep_skip path path_map _ s b hget] at hg
    cases hg
    exact hs
  | some op_value =>
    cases hmap : op_value.asMapping with
    | none =>
      rw [methodStep_bad path path_map _ s b op_value hget hmap] at hg
      cases hg
    | some op_map =>
      rw [methodStep_run path path_map _ s b op_value op_map hget hmap] at hg
      cases hg
      exact processOp_WF s b path op_map _ hs

theorem processPaths_WF (entries : List (Value × Value)) (m' : List (String × Resource))
    (he : processPaths entries = .ok m') : RMapWF m' := by
  unfold processPaths at he
  refine foldlM_except_preserves _ RMapWF ?_ entries [] m' ⟨List.Pairwise.nil, by simp⟩ he
  intro s b s' hs hg
  cases hstr : b.1.asStr with
  | none =>
    rw [pathStep_badkey s b hstr] at hg
    cases hg
  | some path =>
    cases hmap : b.2.asMapping with
    | none =>
      rw [pathStep_baditem s b path hstr hmap] at hg
      cases hg
    | some path_map =>
      rw [pathStep_run s b path path_map hstr hmap] at hg
      exact processPathItem_WF s path path_map s' hs hg

theorem build_ok_WF (doc : Value) (t : CommandTree)
    (he : build_command_tree doc = .ok t) :
    ∃ m, RMapWF m ∧ t.resources = m.map Prod.snd := by
  cases hp : (doc.get "paths").bind Value.asMapping with
  | none =>
    rw [build_command_tree_nopaths doc hp] at he
    cases he
  | some entries =>
    cases hm : processPaths entries with
    | error e =>
      rw [build_command_tree_err doc entries e hp hm] at he
      cases he
    | ok m =>
      rw [build_command_tree_ok doc entries m hp hm] at he
      cases he
      exact ⟨m, processPaths_WF entries m hm, rfl⟩

/-! ## Concrete documents and trees used by the claim theorems -/

def opNamed (n : String) : Operation :=
  { name := n, display_name := "", method := "", path := "", summary := none,
    description := none, parameters := [], has_body := false }

def res0 : Resource := { name := "t", display_name := "t", ops := [] }

def res1 : Resource := { name := "t", display_name := "t", ops := [opNamed "get"] }

def res2 : Resource :=
  { name := "t", display_name := "t", ops := [opNamed "get", opNamed "get-post"] }

def docW1 : Value := .map [(.str "paths", .map [(.str "/a", .map [
  (.str "get", .map [(.str "operationId", .str "one"), (.str "tags", .seq [.str "T"])]),
  (.str "post", .map [(.str "operationId", .str "two"), (.str "tags", .seq [.str "T"])])])])]

def treeW1 : CommandTree :=
  { version := 4, endpoint := "https://api.cloudflare.com/client/v4",
    resources := [{ name := "t", display_name := "T", ops :=
      [{ name := "one", display_name := "one", method := "GET", path := "/a",
         summary := none, description := none, parameters := [], has_body := false },
       { name := "two", display_name := "two", method := "POST", path := "/a",
         summary := none, description := none, parameters := [], has_body := false }] }] }

def docC3 : Value := .map [(.str "paths", .map [(.str "/a", .map [(.str "get", .map
  [(.str "operationId", .str "op"), (.str "tags", .seq [.str "Zones", .str "DNS"])])])])]

def treeC3 : CommandTree :=
  { version := 4, endpoint := "https://api.cloudflare.com/client/v4",
    resources :=
      [{ name := "dns", display_name := "DNS", ops :=
         [{ name := "op", display_name := "op", method := "GET", path := "/a",
            summary := none, description := none, parameters := [], has_body := false }] },
       { name := "zones", display_name := "Zones", ops :=
         [{ name := "op", display_name := "op", method := "GET", path := "/a",
            summary := none, description := none, parameters := [], has_body := false }] }] }

/-- Modelled from the spec's words "order = first-seen-by-tag": the resource
slugs in order of first occurrence of each tag during the traversal (paths in
document order, methods in the fixed method order, tags in document order).
Used only to compare the implemented order against the claimed one. -/
def collectTagSlugs (entries : List (Value × Value)) : List String :=
  entries.foldl (fun acc e =>
    match e.2.asMapping with
    | none => acc
    | some path_map =>
      methods.foldl (fun acc method =>
        match mapGet path_map (.str method) with
        | none => acc
        | some op_value =>
          match op_value.asMapping with
          | none => acc
          | some op_map =>
            (((mapGet op_map (.str "tags")).bind Value.asSequence).getD []).foldl
              (fun acc tagv =>
                match tagv.asStr with
                | none => acc
                | some tag => acc ++ [normalize_name tag]) acc) acc) []

def dedupFirst (l : List String) : List String :=
  l.foldl (fun acc s => if s ∈ acc then acc else acc ++ [s]) []

def firstSeenResourceOrder (doc : Value) : List String :=
  match (doc.get "paths").bind Value.asMapping with
  | none => []
  | some entries => dedupFirst (collectTagSlugs entries)

/-! ## The claim theorems -/

/-- C6: for every input string (including the empty string, all-symbol
strings, and strings with non-ASCII characters) `normalize_name` terminates
(it is a total function) and returns a possibly-empty string consisting only
of lowercase alphanumeric characters and dashes, with no two consecutive
dashes, no leading dash and no trailing dash. -/
theorem C6_normalize_name_total (s : String) :
    (∀ c ∈ (normalize_name s).data, isLowerAlnumB c = true ∨ c = '-') ∧
    List.Chain' noDD (normalize_name s).data ∧
    (normalize_name s).data.head? ≠ some '-' ∧
    (normalize_name s).data.getLast? ≠ some '-' := by
  refine ⟨?_, ?_, ?_, ?_⟩
  · intro c hc
    exact normAux_mem s.data false c
      ((trimDashes_within (normAux s.data false)).sublist.subset hc)
  · exact List.Chain'.infix (normAux_chain s.data false)
      (trimDashes_within (normAux s.data false))
  · intro hh
    exact trimDashes_head (normAux s.data false) '-' hh rfl
  · intro hh
    exact trimDashes_getLast (normAux s.data false) '-' hh rfl

/-- C6 witness: the properties evaluated at the concrete input "A--b_". -/
theorem C6_normalize_name_total_witness :
    isLowerAlnumB 'a' = true ∨ 'a' = '-' :=
  (C6_normalize_name_total "A--b_").1 'a' (by decide)

/-- C10: `normalize_flag` agrees with `normalize_name` on every input: the
extra double-dash collapse is a no-op because `normalize_name` never emits
two consecutive dashes. -/
theorem C10_normalize_flag_eq_normalize_name (s : String) :
    normalize_flag s = normalize_name s := by
  unfold normalize_flag
  have hch : List.Chain' noDD (normalize_name s).data :=
    List.Chain'.infix (normAux_chain s.data false) (trimDashes_within (normAux s.data false))
  rw [replaceDD_of_chain (normalize_name s).data hch]

/-- C9: `unique_op_name` terminates for every resource state, base slug and
method: the numeric-suffix search always reaches a candidate that is not
among the resource's existing operation names, and the returned name is
fresh. -/
theorem C9_unique_op_name_reaches_free_name (resource : Resource) (base method : String) :
    unique_op_name resource base method ∉ resource.ops.map Operation.name :=
  unique_op_name_not_mem resource base method

/-- C5: unique-name assignment escalation: the base slug if free, else the
method-qualified `base-method` if free, else `base-method-i` for the first
numeric suffix `i ≥ 2` that is free; concretely, three operations with base
slug "get" and methods GET, POST, GET receive the names "get", "get-post"
and "get-get" in that order. -/
theorem C5_unique_op_name_escalation :
    (∀ (r : Resource) (base method : String),
        base ∉ r.ops.map Operation.name → unique_op_name r base method = base) ∧
    (∀ (r : Resource) (base method : String),
        base ∈ r.ops.map Operation.name →
        (base ++ "-" ++ method) ∉ r.ops.map Operation.name →
        unique_op_name r base method = base ++ "-" ++ method) ∧
    (∀ (r : Resource) (base method : String),
        base ∈ r.ops.map Operation.name →
        (base ++ "-" ++ method) ∈ r.ops.map Operation.name →
        ∃ i, 2 ≤ i ∧
          unique_op_name r base method = base ++ "-" ++ method ++ "-" ++ natStr i ∧
          (base ++ "-" ++ method ++ "-" ++ natStr i) ∉ r.ops.map Operation.name ∧
          ∀ j, 2 ≤ j → j < i →
            (base ++ "-" ++ method ++ "-" ++ natStr j) ∈ r.ops.map Operation.name) ∧
    (unique_op_name res0 "get" "get" = "get" ∧
     unique_op_name res1 "get" "post" = "get-post" ∧
     unique_op_name res2 "get" "get" = "get-get") := by
  refine ⟨?_, ?_, ?_, by decide, by decide, by decide⟩
  · intro r base method h
    unfold unique_op_name
    rw [if_pos h]
  · intro r base method h1 h2
    unfold unique_op_name
    rw [if_neg (not_not_intro h1), if_pos h2]
  · intro r base method h1 h2
    unfold unique_op_name
    rw [if_neg (not_not_intro h1), if_neg (not_not_intro h2)]
    refine ⟨Nat.find (suffix_free_exists (r.ops.map Operation.name)
      (base ++ "-" ++ method)) + 2, by omega, rfl, ?_, ?_⟩
    · exact Nat.find_spec (suffix_free_exists (r.ops.map Operation.name)
        (base ++ "-" ++ method))
    · intro j hj2 hji
      have hlt : j - 2 < Nat.find (suffix_free_exists (r.ops.map Operation.name)
          (base ++ "-" ++ method)) := by omega
      have := Nat.find_min (suffix_free_exists (r.ops.map Operation.name)
        (base ++ "-" ++ method)) hlt
      rw [not_not] at this
      have hj : j - 2 + 2 = j := by omega
      rwa [hj] at this

/-- C1: in every command tree produced by `build_command_tree`, resource
names are pairwise distinct, and within each resource the operation names
are pairwise distinct. -/
theorem C1_names_unique (doc : Value) (t : CommandTree)
    (h : build_command_tree doc = .ok t) :
    (t.resources.map Resource.name).Nodup ∧
    ∀ r ∈ t.resources, (r.ops.map Operation.name).Nodup := by
  obtain ⟨m, hwf, hres⟩ := build_ok_WF doc t h
  constructor
  · rw [hres, List.map_map,
      show List.map (Resource.name ∘ Prod.snd) m = List.map Prod.fst m from
        List.map_congr_left (fun p hp => (hwf.2 p hp).1)]
    refine List.pairwise_map.mpr ((hwf.1).imp ?_)
    intro a b hab he
    rw [he] at hab
    rw [strLtB_irrefl] at hab
    exact Bool.false_ne_true hab
  · intro r hr
    rw [hres] at hr
    obtain ⟨p, hp, rfl⟩ := List.mem_map.mp hr
    exact (hwf.2 p hp).2

/-- C1 witness: uniqueness evaluated on a concrete two-operation document. -/
theorem C1_names_unique_witness :
    (treeW1.resources.map Resource.name).Nodup ∧
    ∀ r ∈ treeW1.resources, (r.ops.map Operation.name).Nodup :=
  C1_names_unique docW1 treeW1 rfl

/-- C3 counterexample: an operation tagged ["Zones", "DNS"] is first seen
with "zones" before "dns", yet the produced tree lists "dns" before "zones":
the `resources` sequence is NOT in first-seen-by-tag order. -/
theorem C3_order_counterexample :
    (build_command_tree docC3).toOption.map (fun t => t.resources.map Resource.name)
        = some ["dns", "zones"] ∧
    firstSeenResourceOrder docC3 = ["zones", "dns"] ∧
    (["dns", "zones"] : List String) ≠ ["zones", "dns"] :=
  ⟨rfl, rfl, by decide⟩

/-- C3 (amended): the `resources` sequence is ordered by strictly ascending
resource name (the `BTreeMap` iteration order), which is deterministic for
identical input documents. -/
theorem C3_resources_sorted (doc : Value) (t : CommandTree)
    (h : build_command_tree doc = .ok t) :
    List.Pairwise (· < ·) (t.resources.map Resource.name) := by
  obtain ⟨m, hwf, hres⟩ := build_ok_WF doc t h
  rw [hres, List.map_map,
    show List.map (Resource.name ∘ Prod.snd) m = List.map Prod.fst m from
      List.map_congr_left (fun p hp => (hwf.2 p hp).1)]
  refine List.pairwise_map.mpr ((hwf.1).imp ?_)
  intro a b hab
  exact (strLtB_iff _ _).mp hab

/-- C3 witness: the sorted order evaluated on the two-tag document. -/
theorem C3_resources_sorted_witness :
    List.Pairwise (· < ·) (treeC3.resources.map Resource.name) :=
  C3_resources_sorted docC3 treeC3 rfl

/-! ## Error characterization (C2) -/

def isErr {α : Type} : Except String α → Bool
  | .error _ => true
  | .ok _ => false

/-- A present method entry whose operation value is not a mapping: the one
failure the method loop can raise. -/
def methodMalformed (path_map : List (Value × Value)) (method : String) : Bool :=
  match mapGet path_map (.str method) with
  | none => false
  | some op_value => op_value.asMapping.isNone

/-- A structurally malformed entry of the `paths` mapping: non-string key,
non-mapping path item, or a present method whose value is not a mapping. -/
def pathEntryMalformed (e : Value × Value) : Bool :=
  e.1.asStr.isNone ||
    (match e.2.asMapping with
     | none => true
     | some path_map => methods.any (methodMalformed path_map))

theorem isErr_eq_false {α : Type} (x : Except String α) (h : isErr x = false) :
    ∃ s, x = .ok s := by
  cases x with
  | error e => simp [isErr] at h
  | ok s => exact ⟨s, rfl⟩

theorem isErr_eq_true {α : Type} (x : Except String α) (h : isErr x = true) :
    ∃ e, x = .error e := by
  cases x with
  | error e => exact ⟨e, rfl⟩
  | ok s => simp [isErr] at h

theorem foldlM_except_error {β σ : Type} (g : σ → β → Except String σ) (bad : β → Bool)
    (hgood : ∀ s b, bad b = false → ∃ s', g s b = .ok s')
    (hbad : ∀ s b, bad b = true → ∃ e, g s b = .error e) :
    ∀ (l : List β) (s : σ), isErr (l.foldlM g s) = l.any bad
  | [], s => by
    simp only [List.foldlM_nil, List.any_nil]
    rfl
  | b :: l, s => by
    rw [List.foldlM_cons, List.any_cons]
    cases hb : bad b with
    | true =>
      obtain ⟨e, hq⟩ := hbad s b hb
      rw [hq]
      rw [show ((Except.error e : Except String σ) >>= fun s1 => List.foldlM g s1 l)
        = Except.error e from rfl]
      simp [isErr]
    | false =>
      obtain ⟨s', hq⟩ := hgood s b hb
      rw [hq]
      rw [show ((Except.ok s' : Except String σ) >>= fun s1 => List.foldlM g s1 l)
        = List.foldlM g s' l from rfl]
      rw [foldlM_except_error g bad hgood hbad l s']
      simp

theorem processPathItem_isErr (m : List (String × Resource)) (path : String)
    (path_map : List (Value × Value)) :
    isErr (processPathItem m path path_map) = methods.any (methodMalformed path_map) := by
  unfold processPathItem
  apply foldlM_except_error
  · intro s b hb
    cases hget : mapGet path_map (.str b) with
    | none => exact ⟨s, methodStep_skip path path_map _ s b hget⟩
    | some op_value =>
      have hmm : methodMalformed path_map b = op_value.asMapping.isNone := by
        unfold methodMalformed
        rw [hget]
      rw [hmm] at hb
      cases hmap : op_value.asMapping with
      | none => rw [hmap] at hb; simp at hb
      | some op_map =>
        exact ⟨processOp s b path op_map _, methodStep_run path path_map _ s b
          op_value op_map hget hmap⟩
  · intro s b hb
    cases hget : mapGet path_map (.str b) with
    | none =>
      have hmm : methodMalformed path_map b = false := by
        unfold methodMalformed
        rw [hget]
      rw [hmm] at hb
      cases hb
    | some op_value =>
      have hmm : methodMalformed path_map b = op_value.asMapping.isNone := by
        unfold methodMalformed
        rw [hget]
      rw [hmm] at hb
      cases hmap : op_value.asMapping with
      | none =>
        exact ⟨"op must be mapping", methodStep_bad path path_map _ s b op_value hget hmap⟩
      | some op_map => rw [hmap] at hb; simp at hb

theorem processPaths_isErr (entries : List (Value × Value)) :
    isErr (processPaths entries) = entries.any pathEntryMalformed := by
  unfold processPaths
  apply foldlM_except_error
  · intro s b hb
    cases hstr : b.1.asStr with
    | none =>
      have hpe : pathEntryMalformed b = true := by
        unfold pathEntryMalformed
        rw [hstr]
        rfl
      rw [hpe] at hb
      cases hb
    | some path =>
      cases hmap : b.2.asMapping with
      | none =>
        have hpe : pathEntryMalformed b = true := by
          unfold pathEntryMalformed
          rw [hstr, hmap]
          rfl
        rw [hpe] at hb
        cases hb
      | some path_map =>
        have hpe : pathEntryMalformed b = methods.any (methodMalformed path_map) := by
          unfold pathEntryMalformed
          rw [hstr, hmap]
          rfl
        rw [hpe] at hb
        have := processPathItem_isErr s path path_map
        rw [hb] at this
        obtain ⟨s', hs'⟩ := isErr_eq_false _ this
        exact ⟨s', by rw [pathStep_run s b path path_map hstr hmap]; exact hs'⟩
  · intro s b hb
    cases hstr : b.1.asStr with
    | none => exact ⟨"path key must be string", pathStep_badkey s b hstr⟩
    | some path =>
      cases hmap : b.2.asMapping with
      | none => exact ⟨"path item must be mapping", pathStep_baditem s b path hstr hmap⟩
      | some path_map =>
        have hpe : pathEntryMalformed b = methods.any (methodMalformed path_map) := by
          unfold pathEntryMalformed
          rw [hstr, hmap]
          rfl
        rw [hpe] at hb
        have := processPathItem_isErr s path path_map
        rw [hb] at this
        obtain ⟨e, he⟩ := isErr_eq_true _ this
        exact ⟨e, by rw [pathStep_run s b path path_map hstr hmap]; exact he⟩

def docC2 : Value := .map [(.str "paths", .map [(.str "/a", .str "oops")])]

/-- C2 counterexample: a document whose `paths` key is present (and is a
mapping), yet `build_command_tree` returns an error, because a path item is
not a mapping: the error condition is not equivalent to "lacks the `paths`
key". -/
theorem C2_error_counterexample :
    isErr (build_command_tree docC2) = true ∧
    ((docC2.get "paths").bind Value.asMapping).isSome = true :=
  ⟨rfl, rfl⟩

/-- C2 (amended): `build_command_tree` returns an error if and only if the
document lacks a `paths` mapping, or some entry of `paths` is structurally
malformed (non-string path key, non-mapping path item, or a present method
whose operation value is not a mapping).  Tolerated malformations (parameter
entries missing `name`/`in`, operations with no tags, missing schemas) never
produce an error, and no partial tree is emitted on failure. -/
theorem C2_error_iff_structural (doc : Value) :
    isErr (build_command_tree doc) = true ↔
      ((doc.get "paths").bind Value.asMapping = none ∨
       ∃ entries, (doc.get "paths").bind Value.asMapping = some entries ∧
         entries.any pathEntryMalformed = true) := by
  cases hp : (doc.get "paths").bind Value.asMapping with
  | none =>
    rw [build_command_tree_nopaths doc hp]
    exact ⟨fun _ => Or.inl rfl, fun _ => rfl⟩
  | some entries =>
    have hchar := processPaths_isErr entries
    cases hq : processPaths entries with
    | error e =>
      rw [build_command_tree_err doc entries e hp hq]
      refine ⟨fun _ => Or.inr ⟨entries, rfl, ?_⟩, fun _ => rfl⟩
      rw [← hchar, hq]
      rfl
    | ok m =>
      rw [build_command_tree_ok doc entries m hp hq]
      constructor
      · intro hfalse
        exact absurd hfalse (by simp [isErr])
      · intro hr
        rcases hr with hnone | ⟨entries2, he2, hany⟩
        · cases hnone
        · injection he2 with he2
          subst he2
          rw [← hchar, hq] at hany
          exact absurd hany (by simp [isErr])

/-! ## Lookup characterization of `merge_parameters` (C4) -/

/-- The first parameter in `ps` keyed by `(name, location) = k`. -/
def findByKey (ps : List ParamDef) (k : String × String) : Option ParamDef :=
  ps.find? (fun p => p.name == k.1 && p.location == k.2)

/-- The last parameter in `ps` keyed by `(name, location) = k`. -/
def findLastByKey (ps : List ParamDef) (k : String × String) : Option ParamDef :=
  findByKey ps.reverse k

theorem findByKey_values (k : String × String) :
    ∀ m : List ((String × String) × ParamDef), (∀ p ∈ m, paramKey p.2 = p.1) →
      findByKey (m.map Prod.snd) k = amLookup k m
  | [], _ => rfl
  | (k', v) :: rest, h => by
    have hkey : paramKey v = k' := h (k', v) (List.mem_cons_self _ _)
    have hrest := findByKey_values k rest fun p hp => h p (List.mem_cons_of_mem _ hp)
    unfold findByKey at hrest ⊢
    simp only [List.map_cons]
    by_cases hk : k = k'
    · have h1 : v.name = k.1 := by
        rw [hk, ← hkey]
        rfl
      have h2 : v.location = k.2 := by
        rw [hk, ← hkey]
        rfl
      rw [List.find?_cons_of_pos _ (by rw [h1, h2]; simp)]
      unfold amLookup
      rw [if_pos hk]
    · rw [List.find?_cons_of_neg _ ?_]
      · unfold amLookup
        rw [if_neg hk]
        exact hrest
      · intro hpred
        rw [Bool.and_eq_true, beq_iff_eq, beq_iff_eq] at hpred
        apply hk
        rw [← hkey]
        unfold paramKey
        rw [hpred.1, hpred.2]

theorem foldl_insert_sorted (ps : List ParamDef)
    (m : List ((String × String) × ParamDef))
    (hm : List.Pairwise (fun p q : (String × String) × ParamDef =>
      pairLtB p.1 q.1 = true) m) :
    List.Pairwise (fun p q : (String × String) × ParamDef => pairLtB p.1 q.1 = true)
      (ps.foldl (fun m p => amInsert pairLtB (paramKey p) (fun _ => p) m) m) :=
  foldl_preserves _ _
    (fun s b hs => amInsert_sorted pairLtB pairLtB_trans pairLtB_total _ _ s hs) ps m hm

theorem foldl_insert_consistent (ps : List ParamDef)
    (m : List ((String × String) × ParamDef)) (hm : ∀ q ∈ m, paramKey q.2 = q.1) :
    ∀ q ∈ ps.foldl (fun m p => amInsert pairLtB (paramKey p) (fun _ => p) m) m,
      paramKey q.2 = q.1 :=
  foldl_preserves _ (fun m => ∀ q ∈ m, paramKey q.2 = q.1)
    (fun s b hs => amInsert_entries pairLtB (paramKey b) _ (fun k v => paramKey v = k)
      rfl (fun _ _ => rfl) s hs) ps m hm

theorem foldl_insert_lookup (k : String × String) :
    ∀ (ps : List ParamDef) (m : List ((String × String) × ParamDef)),
      List.Pairwise (fun p q : (String × String) × ParamDef => pairLtB p.1 q.1 = true) m →
      amLookup k (ps.foldl (fun m p => amInsert pairLtB (paramKey p) (fun _ => p) m) m)
        = (findLastByKey ps k).or (amLookup k m)
  | [], m, _ => by
    unfold findLastByKey findByKey
    simp
  | p :: ps, m, hm => by
    rw [List.foldl_cons]
    have hms := amInsert_sorted pairLtB pairLtB_trans pairLtB_total
      (paramKey p) (fun _ => p) m hm
    rw [foldl_insert_lookup k ps _ hms]
    have hsplit : findLastByKey (p :: ps) k = (findLastByKey ps k).or (findByKey [p] k) := by
      unfold findLastByKey findByKey
      rw [List.reverse_cons, List.find?_append]
    rw [hsplit]
    cases hfl : findLastByKey ps k with
    | some q => simp
    | none =>
      simp only [Option.none_or]
      by_cases hk : k = paramKey p
      · subst hk
        rw [amLookup_insert_self pairLtB pairLtB_irrefl pairLtB_trans _ _ m hm]
        have hone : findByKey [p] (paramKey p) = some p := by
          unfold findByKey
          rw [List.find?_cons_of_pos _ (by unfold paramKey; simp)]
        rw [hone]
        simp
      · rw [amLookup_insert_ne pairLtB (paramKey p) k _ hk m]
        have hnone : findByKey [p] k = none := by
          unfold findByKey
          rw [List.find?_cons_of_neg _ ?_]
          · rfl
          · intro hpred
            rw [Bool.and_eq_true, beq_iff_eq, beq_iff_eq] at hpred
            apply hk
            unfold paramKey
            rw [hpred.1, hpred.2]
        rw [hnone]
        simp

theorem merge_parameters_lookup (base override_params : List ParamDef)
    (k : String × String) :
    findByKey (merge_parameters base override_params) k =
      (findLastByKey override_params k).or (findLastByKey base k) := by
  unfold merge_parameters
  have hs1 := foldl_insert_sorted base [] List.Pairwise.nil
  have hc1 := foldl_insert_consistent base [] (by simp)
  have hc2 := foldl_insert_consistent override_params _ hc1
  rw [findByKey_values k _ hc2]
  rw [foldl_insert_lookup k override_params _ hs1]
  rw [foldl_insert_lookup k base [] List.Pairwise.nil]
  rw [show amLookup k ([] : List ((String × String) × ParamDef)) = none from rfl]
  simp

theorem merge_parameters_keys_nodup (base override_params : List ParamDef) :
    ((merge_parameters base override_params).map paramKey).Nodup := by
  unfold merge_parameters
  have hs1 := foldl_insert_sorted base [] List.Pairwise.nil
  have hs2 := foldl_insert_sorted override_params _ hs1
  have hc1 := foldl_insert_consistent base [] (by simp)
  have hc2 := foldl_insert_consistent override_params _ hc1
  rw [List.map_map,
    show List.map (paramKey ∘ Prod.snd)
        (override_params.foldl (fun m p => amInsert pairLtB (paramKey p) (fun _ => p) m)
          (base.foldl (fun m p => amInsert pairLtB (paramKey p) (fun _ => p) m) []))
      = List.map Prod.fst
        (override_params.foldl (fun m p => amInsert pairLtB (paramKey p) (fun _ => p) m)
          (base.foldl (fun m p => amInsert pairLtB (paramKey p) (fun _ => p) m) [])) from
      List.map_congr_left (fun p hp => hc2 p hp)]
  refine List.pairwise_map.mpr (hs2.imp ?_)
  intro a b hab he
  rw [he] at hab
  rw [pairLtB_irrefl] at hab
  exact Bool.false_ne_true hab

/-- C4: `merge_parameters` keys parameters by `(name, location)`: for every
key, the merged list holds the override's last entry for that key when one
exists, else the base's last entry; merged keys are pairwise distinct; and
merging path-level `{name: "id", in: "path", required: false}` with
operation-level `{name: "id", in: "path", required: true}` yields exactly one
parameter, with `required = true`. -/
theorem C4_merge_parameters_override :
    (∀ (base override_params : List ParamDef) (k : String × String),
        findByKey (merge_parameters base override_params) k =
          (findLastByKey override_params k).or (findLastByKey base k)) ∧
    (∀ base override_params : List ParamDef,
        ((merge_parameters base override_params).map paramKey).Nodup) ∧
    merge_parameters
        [{ name := "id", flag := "id", location := "path", required := false,
           list := false, schema_type := none, description := none }]
        [{ name := "id", flag := "id", location := "path", required := true,
           list := false, schema_type := none, description := none }] =
      [{ name := "id", flag := "id", location := "path", required := true,
         list := false, schema_type := none, description := none }] :=
  ⟨merge_parameters_lookup, merge_parameters_keys_nodup, by decide⟩

/-! ## Schema inference (C7) -/

theorem parse_schema_some_map (schema : List (Value × Value)) :
    parse_schema (some (.map schema)) = parse_schema_map schema :=
  rfl

/-- C7: `parse_schema` infers list/type as specified: an array schema with a
typed `items` yields `(some itemType, true)`; an array schema without a
usable item type yields the fallback `(some "array", true)`; a non-array
schema yields `(some scalarType, false)`; and a missing schema, a non-mapping
schema or a schema without a usable `type` yields `(none, false)`. -/
theorem C7_parse_schema_inference :
    (∀ (schema : List (Value × Value)) (t : String),
        (mapGet schema (.str "type")).bind Value.asStr = some "array" →
        ((mapGet schema (.str "items")).bind Value.asMapping).bind
          (fun items => (mapGet items (.str "type")).bind Value.asStr) = some t →
        parse_schema (some (.map schema)) = (some t, true)) ∧
    (∀ schema : List (Value × Value),
        (mapGet schema (.str "type")).bind Value.asStr = some "array" →
        ((mapGet schema (.str "items")).bind Value.asMapping).bind
          (fun items => (mapGet items (.str "type")).bind Value.asStr) = none →
        parse_schema (some (.map schema)) = (some "array", true)) ∧
    (∀ (schema : List (Value × Value)) (t : String),
        (mapGet schema (.str "type")).bind Value.asStr = some t → t ≠ "array" →
        parse_schema (some (.map schema)) = (some t, false)) ∧
    (∀ schema : List (Value × Value),
        (mapGet schema (.str "type")).bind Value.asStr = none →
        parse_schema (some (.map schema)) = (none, false)) ∧
    parse_schema none = (none, false) ∧
    (∀ v : Value, v.asMapping = none → parse_schema (some v) = (none, false)) := by
  refine ⟨?_, ?_, ?_, ?_, rfl, ?_⟩
  · intro schema t h1 h2
    rw [parse_schema_some_map]
    unfold parse_schema_map
    rw [h1, h2]
    rfl
  · intro schema h1 h2
    rw [parse_schema_some_map]
    unfold parse_schema_map
    rw [h1, h2]
    rfl
  · intro schema t h1 hne
    rw [parse_schema_some_map]
    unfold parse_schema_map
    rw [h1]
    have hbeq : (some t == some "array") = false := by
      rw [beq_eq_false_iff_ne]
      intro hc
      injection hc with hc
      exact hne hc
    dsimp only
    rw [hbeq]
    rfl
  · intro schema h1
    rw [parse_schema_some_map]
    unfold parse_schema_map
    rw [h1]
    rfl
  · intro v hv
    unfold parse_schema
    rw [show (some v).bind Value.asMapping = v.asMapping from rfl, hv]

/-! ## Tag fan-out (C8) -/

def resKeysSorted (m : List (String × Resource)) : Prop :=
  List.Pairwise (fun p q : String × Resource => strLtB p.1 q.1 = true) m

def docC8none : Value := .map [(.str "paths", .map [(.str "/a", .map [(.str "get", .map
  [(.str "operationId", .str "op")])])])]

def treeEmpty : CommandTree :=
  { version := 4, endpoint := "https://api.cloudflare.com/client/v4", resources := [] }

/-- C8: for every discovered operation, one operation entry is appended per
string tag to the resource keyed by the normalized tag text: processing one
tag makes that resource's operation list one longer, creating the resource
with `display_name` equal to the raw tag text if it did not exist and
keeping the existing `display_name` otherwise, while every other resource is
untouched; an operation tagged ["Zones", "DNS"] yields one operation under
resource "dns" and one under resource "zones", and an operation with zero
tags contributes no operation to any resource. -/
theorem C8_tag_fanout :
    (∀ (info : OpInfo) (m : List (String × Resource)) (tag : String),
        resKeysSorted m →
        (amLookup (normalize_name tag) (addOpForTag info m (.str tag))).map
            (fun r => (r.display_name, r.ops.length)) =
          some
            (((amLookup (normalize_name tag) m).map Resource.display_name).getD tag,
             ((amLookup (normalize_name tag) m).map (fun r => r.ops.length)).getD 0 + 1)) ∧
    (∀ (info : OpInfo) (m : List (String × Resource)) (j : String) (tagv : Value),
        (∀ tag : String, tagv.asStr = some tag → j ≠ normalize_name tag) →
        amLookup j (addOpForTag info m tagv) = amLookup j m) ∧
    build_command_tree docC3 = .ok treeC3 ∧
    build_command_tree docC8none = .ok treeEmpty := by
  refine ⟨?_, ?_, rfl, rfl⟩
  · intro info m tag hm
    rw [addOpForTag_some info m (.str tag) tag rfl]
    rw [amLookup_insert_self strLtB strLtB_irrefl strLtB_trans _ _ m hm]
    cases hprev : amLookup (normalize_name tag) m with
    | none =>
      rw [tagStep_none]
      simp
    | some v =>
      rw [tagStep_some]
      simp
  · intro info m j tagv hj
    cases htag : tagv.asStr with
    | none => rw [addOpForTag_none info m tagv htag]
    | some tag =>
      rw [addOpForTag_some info m tagv tag htag]
      exact amLookup_insert_ne strLtB _ _ _ (hj tag htag) m

end CfCli
